import Mathlib

/-!
Shallow embedding of the diagram-text sanitizer `sanitizeMermaid` from
`src/components/MermaidDiagram.tsx` (lines 17-93).  The function is a pure
string-to-string transformer built from a pipeline of JavaScript regex
replaces, a line split, a per-line token split and a token re-emission step.
We model strings as `List Char` and each regex operation as an explicit
scanner with the exact leftmost/greedy semantics of the JS regexes involved
(all of which are backtracking-free, as each quantified class is disjoint
from the character that must follow it).  Recursions that consume a variable
number of characters per step take an explicit fuel argument (instantiated
with the input length, which always suffices since every step consumes at
least one character); exhaustion cases are chosen so that lemmas hold for
every fuel value.  Case-insensitivity (`/i`, `toLowerCase`) is modelled with
`Char.toLower`, which agrees with JavaScript on ASCII, the only range the
source's keywords and character classes use.
-/

/-- Whitespace class of the JavaScript regex `\s` and of `String.prototype.trim`:
WhiteSpace plus LineTerminator code points. -/
def jsWs (c : Char) : Bool :=
  c == ' ' || c == '\t' || c == '\n' || c == '\r' ||
  c == '\x0b' || c == '\x0c' || c == '\u00A0' || c == '\uFEFF' ||
  c == '\u1680' || ('\u2000' ≤ c && c ≤ '\u200A') || c == '\u2028' || c == '\u2029' ||
  c == '\u202F' || c == '\u205F' || c == '\u3000'

/-- Characters matched by the JS regex `.` (without the s flag): everything
except line terminators. -/
def dotOk (c : Char) : Bool :=
  !(c == '\n' || c == '\r' || c == '\u2028' || c == '\u2029')

/-- The double-quote character. -/
def quoteC : Char := Char.ofNat 34

/-- The single-quote character. -/
def squoteC : Char := Char.ofNat 39

/-- The backtick character. -/
def btickC : Char := Char.ofNat 96

/-- The opening-brace character. -/
def obraceC : Char := Char.ofNat 123

/-- The closing-brace character. -/
def cbraceC : Char := Char.ofNat 125

/-- Identifier characters of the source's `[a-zA-Z0-9_]` class. -/
def idChar (c : Char) : Bool := c.isAlpha || c.isDigit || c == '_'

/-- Match a literal character list at the head of `l`; on success return
the remainder. -/
def takeLit : List Char → List Char → Option (List Char)
  | [], l => some l
  | _ :: _, [] => none
  | p :: ps, c :: cs => if p == c then takeLit ps cs else none

/-- Case-insensitive variant of `takeLit`, modelling regex `/i` matching of
an ASCII literal. -/
def takeLitCI : List Char → List Char → Option (List Char)
  | [], l => some l
  | _ :: _, [] => none
  | p :: ps, c :: cs => if p.toLower == c.toLower then takeLitCI ps cs else none

/-- Case-insensitive "starts with" test (used for `/^pat/i.test(line)`). -/
def ciStarts : List Char → List Char → Bool
  | [], _ => true
  | _ :: _, [] => false
  | p :: ps, c :: cs => (p.toLower == c.toLower) && ciStarts ps cs

/-- Global replacement of a literal pattern by the empty string
(`s.replace(/lit/g, '')` for a literal, case-sensitive pattern). -/
def removeLitF (pat : List Char) : Nat → List Char → List Char
  | 0, l => l
  | _ + 1, [] => []
  | fuel + 1, c :: cs =>
    match takeLit pat (c :: cs) with
    | some rest => removeLitF pat fuel rest
    | none => c :: removeLitF pat fuel cs

def removeLit (pat : List Char) (l : List Char) : List Char := removeLitF pat l.length l

/-- Case-insensitive global literal removal (`s.replace(/lit/gi, '')`). -/
def removeLitCIF (pat : List Char) : Nat → List Char → List Char
  | 0, l => l
  | _ + 1, [] => []
  | fuel + 1, c :: cs =>
    match takeLitCI pat (c :: cs) with
    | some rest => removeLitCIF pat fuel rest
    | none => c :: removeLitCIF pat fuel cs

def removeLitCI (pat : List Char) (l : List Char) : List Char := removeLitCIF pat l.length l

/-- Drop trailing `jsWs` characters. -/
def trimEnd (l : List Char) : List Char := (l.reverse.dropWhile jsWs).reverse

/-- JavaScript `String.prototype.trim`. -/
def jsTrim (l : List Char) : List Char := trimEnd (l.dropWhile jsWs)

/-- One match attempt of `/subgraph\s+[^\n]*/i` at the current position:
the literal (case-insensitive), then a maximal nonempty whitespace run, then
a maximal run of non-newline characters.  Returns the rest on success. -/
def trySub (l : List Char) : Option (List Char) :=
  match takeLitCI ("subgraph".data) l with
  | none => none
  | some r₁ =>
    match r₁ with
    | [] => none
    | c :: _ =>
      if jsWs c then
        some ((r₁.dropWhile jsWs).dropWhile (fun d => !(d == '\n')))
      else none

/-- Global scan for `s.replace(/subgraph\s+[^\n]*/gi, '')` (source line 24). -/
def removeSubF : Nat → List Char → List Char
  | 0, l => l
  | _ + 1, [] => []
  | fuel + 1, c :: cs =>
    match trySub (c :: cs) with
    | some rest => removeSubF fuel rest
    | none => c :: removeSubF fuel cs

def removeSub (l : List Char) : List Char := removeSubF l.length l

/-- Greedy trailing `\s*$` of the `/^\s*end\s*$/gim` pattern: consume the
longest whitespace run whose stopping point is the end of the string or a
newline; return whether the character before the stopping point is a newline,
and the rest from the stopping point on. -/
def endTrail (pn : Bool) : List Char → Option (Bool × List Char)
  | [] => some (pn, [])
  | c :: cs =>
    if jsWs c then
      match endTrail (c == '\n') cs with
      | some r => some r
      | none => if c == '\n' then some (pn, c :: cs) else none
    else none

/-- One match attempt of `/^\s*end\s*$/im` at a line-start position. -/
def tryEnd (l : List Char) : Option (Bool × List Char) :=
  match takeLitCI ("end".data) (l.dropWhile jsWs) with
  | none => none
  | some r₂ => endTrail false r₂

/-- Global multiline scan for `s.replace(/^\s*end\s*$/gim, '')` (source
line 25).  `atStart` records whether the current position is the string
start or preceded by a newline (the `^` anchor with the m flag). -/
def removeEndF : Nat → Bool → List Char → List Char
  | 0, _, l => l
  | _ + 1, _, [] => []
  | fuel + 1, atStart, c :: cs =>
    if atStart then
      match tryEnd (c :: cs) with
      | some (pn, rest) => removeEndF fuel pn rest
      | none => c :: removeEndF fuel (c == '\n') cs
    else c :: removeEndF fuel (c == '\n') cs

def removeEnd (l : List Char) : List Char := removeEndF l.length true l

/-- One repetition of the `-+>` (resp. `=+>`) group: a maximal nonempty run
of the marker character followed by a literal `>`. -/
def oneRep (mark : Char) (l : List Char) : Option (List Char) :=
  match l.takeWhile (· == mark), l.dropWhile (· == mark) with
  | [], _ => none
  | _ :: _, '>' :: r => some r
  | _ :: _, _ => none

/-- Maximal nonempty sequence of `oneRep` repetitions (the `+` on the group). -/
def manyRepsF (mark : Char) : Nat → List Char → Option (List Char)
  | 0, _ => none
  | fuel + 1, l =>
    match oneRep mark l with
    | none => none
    | some r =>
      match manyRepsF mark fuel r with
      | some r' => some r'
      | none => some r

/-- Global scan for `s.replace(/(-+>)+/g, '-->')` and
`s.replace(/(=+>)+/g, '==>')` (source lines 29-30). -/
def collapseRunF (mark : Char) (canon : List Char) : Nat → List Char → List Char
  | 0, l => l
  | _ + 1, [] => []
  | fuel + 1, c :: cs =>
    match manyRepsF mark (c :: cs).length (c :: cs) with
    | some rest => canon ++ collapseRunF mark canon fuel rest
    | none => c :: collapseRunF mark canon fuel cs

def collapseRun (mark : Char) (canon : List Char) (l : List Char) : List Char :=
  collapseRunF mark canon l.length l

/-- One repetition of the `-+\.+-+>` group. -/
def oneDotRep (l : List Char) : Option (List Char) :=
  match l.takeWhile (· == '-') with
  | [] => none
  | _ :: _ =>
    let r₁ := l.dropWhile (· == '-')
    match r₁.takeWhile (· == '.') with
    | [] => none
    | _ :: _ =>
      let r₂ := r₁.dropWhile (· == '.')
      match r₂.takeWhile (· == '-') with
      | [] => none
      | _ :: _ =>
        match r₂.dropWhile (· == '-') with
        | '>' :: r => some r
        | _ => none

def manyDotRepsF : Nat → List Char → Option (List Char)
  | 0, _ => none
  | fuel + 1, l =>
    match oneDotRep l with
    | none => none
    | some r =>
      match manyDotRepsF fuel r with
      | some r' => some r'
      | none => some r

/-- Global scan for `s.replace(/(-+\.+-+>)+/g, '-.->')` (source line 31). -/
def collapseDottedF : Nat → List Char → List Char
  | 0, l => l
  | _ + 1, [] => []
  | fuel + 1, c :: cs =>
    match manyDotRepsF (c :: cs).length (c :: cs) with
    | some rest => "-.->".data ++ collapseDottedF fuel rest
    | none => c :: collapseDottedF fuel cs

def collapseDotted (l : List Char) : List Char := collapseDottedF l.length l

/-- Split on newline characters (JavaScript `s.split('\n')`). -/
def splitNL : List Char → List (List Char)
  | [] => [[]]
  | c :: cs =>
    if c == '\n' then [] :: splitNL cs
    else
      match splitNL cs with
      | [] => [[c]]
      | x :: xs => (c :: x) :: xs

/-- Join with a separator (JavaScript `Array.prototype.join`). -/
def joinSep (sep : List Char) : List (List Char) → List Char
  | [] => []
  | [x] => x
  | x :: y :: xs => x ++ sep ++ joinSep sep (y :: xs)

/-- Header test `lines[0].toLowerCase().match(/^(graph|flowchart)\s+/)`
(source line 38). -/
def headerTest (l : List Char) : Bool :=
  (match takeLitCI ("graph".data) l with
   | some (c :: _) => jsWs c
   | _ => false) ||
  (match takeLitCI ("flowchart".data) l with
   | some (c :: _) => jsWs c
   | _ => false)

/-- Residual grouping-marker re-check
`/^(subgraph|end|endsubgraph)/i.test(line)` (source line 50). -/
def groupTest (l : List Char) : Bool :=
  ciStarts ("subgraph".data) l || ciStarts ("end".data) l ||
    ciStarts ("endsubgraph".data) l

/-- One match attempt of `/\s*ARROW\s*/` at the current position: a maximal
(possibly empty) whitespace run, the literal arrow, a maximal (possibly
empty) whitespace run. -/
def wsArrowWs (arrow : List Char) (l : List Char) : Option (List Char) :=
  match takeLit arrow (l.dropWhile jsWs) with
  | none => none
  | some r₂ => some (r₂.dropWhile jsWs)

/-- Global scan for `line.replace(/\s*ARROW\s*/g, ' ARROW ')` (source
lines 53-56). -/
def padArrowF (arrow : List Char) : Nat → List Char → List Char
  | 0, l => l
  | _ + 1, [] => []
  | fuel + 1, c :: cs =>
    match wsArrowWs arrow (c :: cs) with
    | some rest => ' ' :: (arrow ++ (' ' :: padArrowF arrow fuel rest))
    | none => c :: padArrowF arrow fuel cs

def padArrow (arrow : List Char) (l : List Char) : List Char := padArrowF arrow l.length l

/-- Try the four arrow alternatives of the split regex, in the source's
alternation order. -/
def tryArrow (l : List Char) : Option (List Char × List Char) :=
  match takeLit ("-->".data) l with
  | some r => some ("-->".data, r)
  | none =>
    match takeLit ("==>".data) l with
    | some r => some ("==>".data, r)
    | none =>
      match takeLit ("-.->".data) l with
      | some r => some ("-.->".data, r)
      | none =>
        match takeLit ("---".data) l with
        | some r => some ("---".data, r)
        | none => none

/-- Head-is-whitespace test (a nonempty leading `\s+` run exists). -/
def headWs : List Char → Bool
  | [] => false
  | c :: _ => jsWs c

/-- One separator match of `/\s+(-->|==>|-\.->|---)\s+/` at the current
position. -/
def sepMatch (l : List Char) : Option (List Char × List Char) :=
  if headWs l then
    match tryArrow (l.dropWhile jsWs) with
    | none => none
    | some (a, r₂) => if headWs r₂ then some (a, r₂.dropWhile jsWs) else none
  else none

/-- Scanner for `line.split(/\s+(-->|==>|-\.->|---)\s+/g)` (source line 59):
pieces between separators, with each captured arrow kept as its own entry. -/
def splitGoF : Nat → List Char → List Char → List (List Char)
  | 0, acc, l => [acc.reverse ++ l]
  | _ + 1, acc, [] => [acc.reverse]
  | fuel + 1, acc, c :: cs =>
    match sepMatch (c :: cs) with
    | some (a, rest) => acc.reverse :: a :: splitGoF fuel [] rest
    | none => splitGoF fuel (c :: acc) cs

def splitArrows (l : List Char) : List (List Char) := splitGoF l.length [] l

/-- Exact-arrow test `/^(-->|==>|-\.->|---)$/.test(trimmed)` (source
line 65). -/
def isArrowTok (t : List Char) : Bool :=
  t == "-->".data || t == "==>".data || t == "-.->".data || t == "---".data

/-- Lazy scan for the `(.+?)` of the node regex
`/^([a-zA-Z0-9_]+)\s*[\[\(\{](.+?)[\]\)\}]\s*$/` (source line 68): the
shortest nonempty label such that the next character is a closing delimiter
followed only by whitespace; every consumed character must be matched by `.`. -/
def labelScan (acc : List Char) : List Char → Option (List Char)
  | [] => none
  | c :: cs =>
    if !acc.isEmpty && (c == ']' || c == ')' || c == cbraceC) && cs.all jsWs then
      some acc.reverse
    else if dotOk c then labelScan (c :: acc) cs
    else none

/-- After the identifier and optional whitespace: one opening delimiter and
the lazy label with its closing delimiter (rest of the node regex). -/
def nodeLabel (r₂ : List Char) : Option (List Char) :=
  match r₂ with
  | c :: r₃ => if c == '[' || c == '(' || c == obraceC then labelScan [] r₃ else none
  | [] => none

/-- The node-shape match of source line 68: identifier, optional whitespace,
one opening delimiter, lazy label, closing delimiter, trailing whitespace. -/
def nodeMatch (t : List Char) : Option (List Char × List Char) :=
  if (t.takeWhile idChar).isEmpty then none
  else
    match nodeLabel ((t.dropWhile idChar).dropWhile jsWs) with
    | some lab => some (t.takeWhile idChar, lab)
    | none => none

/-- Label cleaning of source lines 73-77: strip quote characters, strip
bracket characters, strip everything outside `[a-zA-Z0-9\s-]`, then trim. -/
def labelClean (l : List Char) : List Char :=
  jsTrim (((l.filter (fun c => !(c == quoteC || c == squoteC || c == btickC))).filter
      (fun c => !(c == '[' || c == ']' || c == '(' || c == ')' || c == obraceC || c == cbraceC))).filter
    (fun c => c.isAlpha || c.isDigit || jsWs c || c == '-'))

/-- The per-token map of source lines 61-85 (`trimmed` of the source is
`jsTrim p`): keep arrows, re-emit matched nodes as `id["label"]`, keep bare
identifiers, drop everything else. -/
def sanitizePart (p : List Char) : List Char :=
  if isArrowTok (jsTrim p) then jsTrim p
  else
    match nodeMatch (jsTrim p) with
    | some (id, lab) => id ++ ('[' :: quoteC :: (labelClean lab ++ [quoteC, ']']))
    | none => if !(jsTrim p).isEmpty && (jsTrim p).all idChar then jsTrim p else []

/-- The four spacing fixes of source lines 53-56, in order: solid, the
source's three-equals thick spelling, dotted, plain link. -/
def padAll (line : List Char) : List Char :=
  padArrow ("---".data)
    (padArrow ("-.->".data) (padArrow ("===>".data) (padArrow ("-->".data) line)))

/-- The per-line pipeline of source lines 52-85: the four spacing fixes,
the arrow split, the token map and the empty filter. -/
def sanitizeLine (line : List Char) : List (List Char) :=
  ((splitArrows (padAll line)).map sanitizePart).filter (fun t => !t.isEmpty)

/-- The body of the per-line loop (source lines 46-89): skip residual
grouping-marker lines, and skip lines with no surviving tokens; otherwise
emit the tokens joined by single spaces. -/
def processLine (line : List Char) : Option (List Char) :=
  if groupTest line then none
  else if (sanitizeLine line).isEmpty then none
  else some (joinSep [' '] (sanitizeLine line))

/-- The whole-string preprocessing of source lines 21-31: fence removal,
trim, subgraph/end/endsubgraph removal, arrow-run collapse. -/
def preprocess (l : List Char) : List Char :=
  let s₁ := removeLit ("```mermaid".data) l
  let s₂ := removeLit ("```".data) s₁
  let s₃ := jsTrim s₂
  let s₄ := removeSub s₃
  let s₅ := removeEnd s₄
  let s₆ := removeLitCI ("endsubgraph".data) s₅
  let s₇ := collapseRun '-' ("-->".data) s₆
  let s₈ := collapseRun '=' ("==>".data) s₇
  collapseDotted s₈

/-- The trimmed, nonempty lines of the preprocessed input (source line 33). -/
def sanitizedLines (l : List Char) : List (List Char) :=
  ((splitNL (preprocess l)).map jsTrim).filter (fun x => !x.isEmpty)

/-- The complete sanitizer (source lines 17-93) on character lists. -/
def sanitizeCore (l : List Char) : List Char :=
  if l.isEmpty then []
  else
    match sanitizedLines l with
    | [] => joinSep ['\n'] ["graph TD".data]
    | l₀ :: rest =>
      if headerTest l₀ then joinSep ['\n'] (l₀ :: rest.filterMap processLine)
      else joinSep ['\n'] ("graph TD".data :: (l₀ :: rest).filterMap processLine)

/-- `sanitizeMermaid` itself, as a `String → String` function. -/
def sanitizeMermaid (s : String) : String := String.mk (sanitizeCore s.data)

/-- Substring occurrence test, used to state what an output does not contain. -/
def containsSub (pat : List Char) : List Char → Bool
  | [] => pat.isEmpty
  | c :: cs => (takeLit pat (c :: cs)).isSome || containsSub pat cs

/-- First line of a character list. -/
def firstSeg (l : List Char) : List Char := l.takeWhile (fun c => !(c == '\n'))

/-- A line is a grouping-marker line if it starts (case-insensitively) with
the subgraph keyword or the end keyword. -/
def groupingLine (l : List Char) : Bool :=
  ciStarts ("subgraph".data) l || ciStarts ("end".data) l

/-- Connector-shaped token: nonempty and built only from arrow characters. -/
def connLike (t : List Char) : Bool :=
  !t.isEmpty && t.all (fun c => c == '-' || c == '=' || c == '.' || c == '>')

/-- The four arrow spellings the token map can emit. -/
def arrowLitP (a : List Char) : Prop :=
  a = "-->".data ∨ a = "==>".data ∨ a = "-.->".data ∨ a = "---".data

/-- Characters that can occur in an emitted label: the source's
`[a-zA-Z0-9\s-]` class, and matched by `.` (so never a line terminator). -/
def labelCh (c : Char) : Prop :=
  (c.isAlpha || c.isDigit || jsWs c || c == '-') = true ∧ dotOk c = true

/-- Well-formed emitted token: a canonical connector, a bare identifier, or
a node of the canonical shape `id["label"]`. -/
def tokOk (t : List Char) : Prop :=
  isArrowTok t = true ∨
  (t ≠ [] ∧ t.all idChar = true) ∨
  (∃ id lab, t = id ++ '[' :: quoteC :: (lab ++ [quoteC, ']']) ∧
    id ≠ [] ∧ id.all idChar = true ∧ ∀ c ∈ lab, labelCh c)

/-! Helper lemmas about the embedding. -/

theorem ciStarts_nil_pat (l : List Char) : ciStarts [] l = true := rfl

theorem ciStarts_of_append {pat xs : List Char} (ys : List Char)
    (h : ciStarts pat xs = true) : ciStarts pat (xs ++ ys) = true := by
  induction pat generalizing xs with
  | nil => rfl
  | cons p ps ih =>
    cases xs with
    | nil => simp [ciStarts] at h
    | cons c cs =>
      simp only [ciStarts, Bool.and_eq_true] at h
      simp only [List.cons_append, ciStarts, Bool.and_eq_true]
      exact ⟨h.1, ih h.2⟩

theorem ciStarts_stops {pat xs ys : List Char} {c : Char}
    (hp : ∀ q ∈ pat, q.toLower.isAlpha = true) (hc : c.toLower.isAlpha = false)
    (h : ciStarts pat (xs ++ c :: ys) = true) : ciStarts pat xs = true := by
  induction pat generalizing xs with
  | nil => rfl
  | cons p ps ih =>
    cases xs with
    | nil =>
      simp only [List.nil_append, ciStarts, Bool.and_eq_true, beq_iff_eq] at h
      have := hp p (by simp)
      rw [h.1, hc] at this
      exact absurd this (by simp)
    | cons d ds =>
      simp only [List.cons_append, ciStarts, Bool.and_eq_true] at h
      simp only [ciStarts, Bool.and_eq_true]
      exact ⟨h.1, ih (fun q hq => hp q (by simp [hq])) h.2⟩

theorem trimEnd_decomp (m : List Char) : ∃ w, m = trimEnd m ++ w := by
  refine ⟨(m.reverse.takeWhile jsWs).reverse, ?_⟩
  unfold trimEnd
  rw [← List.reverse_append, List.takeWhile_append_dropWhile, List.reverse_reverse]

theorem ciStarts_trimEnd {pat m : List Char}
    (h : ciStarts pat (trimEnd m) = true) : ciStarts pat m = true := by
  obtain ⟨w, hw⟩ := trimEnd_decomp m
  rw [hw]
  exact ciStarts_of_append w h

theorem ciStarts_jsTrim {pat l : List Char}
    (h : ciStarts pat (jsTrim l) = true) : ciStarts pat (l.dropWhile jsWs) = true :=
  ciStarts_trimEnd h

theorem dropWhile_head_false {p : Char → Bool} {l : List Char} {c : Char} {cs : List Char}
    (h : l.dropWhile p = c :: cs) : p c = false := by
  induction l with
  | nil => simp at h
  | cons d ds ih =>
    by_cases hd : p d
    · rw [List.dropWhile_cons_of_pos hd] at h
      exact ih h
    · rw [List.dropWhile_cons_of_neg hd] at h
      cases h
      exact Bool.of_not_eq_true hd

theorem jsTrim_dropWhile (x : List Char) : (jsTrim x).dropWhile jsWs = jsTrim x := by
  cases h : jsTrim x with
  | nil => rfl
  | cons c cs =>
    have hm : ∃ w, x.dropWhile jsWs = (c :: cs) ++ w := by
      obtain ⟨w, hw⟩ := trimEnd_decomp (x.dropWhile jsWs)
      exact ⟨w, by rw [hw]; unfold jsTrim at h; rw [h]⟩
    obtain ⟨w, hw⟩ := hm
    have hc : jsWs c = false := dropWhile_head_false (l := x) (by rw [hw]; rfl)
    rw [List.dropWhile_cons_of_neg (by simp [hc])]

theorem padStraight (arrow : List Char) :
    ∀ fuel pat l, (∀ q ∈ pat, q.toLower.isAlpha = true) →
      ciStarts pat (padArrowF arrow fuel l) = true → ciStarts pat l = true := by
  intro fuel
  induction fuel with
  | zero => intro pat l _ h; exact h
  | succ f ih =>
    intro pat l hp h
    cases l with
    | nil => exact h
    | cons c cs =>
      rcases hw : wsArrowWs arrow (c :: cs) with _ | rest
      · rw [padArrowF, hw] at h
        cases pat with
        | nil => rfl
        | cons q qs =>
          simp only [ciStarts, Bool.and_eq_true] at h ⊢
          exact ⟨h.1, ih qs cs (fun a ha => hp a (by simp [ha])) h.2⟩
      · rw [padArrowF, hw] at h
        cases pat with
        | nil => rfl
        | cons q qs =>
          simp only [ciStarts, Bool.and_eq_true, beq_iff_eq] at h
          have hq := hp q (by simp)
          rw [h.1] at hq
          exact absurd hq (by decide)

theorem padDrop {a₀ : Char} {arest : List Char} (arrow : List Char)
    (harrow : arrow = a₀ :: arest) (ha₁ : jsWs a₀ = false)
    (ha₂ : a₀.toLower.isAlpha = false) :
    ∀ fuel pat l, (∀ q ∈ pat, q.toLower.isAlpha = true) →
      ciStarts pat ((padArrowF arrow fuel l).dropWhile jsWs) = true →
      ciStarts pat (l.dropWhile jsWs) = true := by
  intro fuel
  induction fuel with
  | zero => intro pat l _ h; exact h
  | succ f ih =>
    intro pat l hp h
    cases l with
    | nil => exact h
    | cons c cs =>
      rcases hw : wsArrowWs arrow (c :: cs) with _ | rest
      · rw [padArrowF, hw] at h
        by_cases hc : jsWs c = true
        · rw [List.dropWhile_cons_of_pos hc] at h
          rw [List.dropWhile_cons_of_pos hc]
          exact ih pat cs hp h
        · rw [List.dropWhile_cons_of_neg (by simp_all)] at h
          rw [List.dropWhile_cons_of_neg (by simp_all)]
          cases pat with
          | nil => rfl
          | cons q qs =>
            simp only [ciStarts, Bool.and_eq_true] at h ⊢
            exact ⟨h.1, padStraight arrow f qs cs (fun a ha => hp a (by simp [ha])) h.2⟩
      · rw [padArrowF, hw, harrow] at h
        rw [List.dropWhile_cons_of_pos (by decide), List.cons_append,
          List.dropWhile_cons_of_neg (by simp [ha₁])] at h
        cases pat with
        | nil => rfl
        | cons q qs =>
          simp only [ciStarts, Bool.and_eq_true, beq_iff_eq] at h
          have hq := hp q (by simp)
          rw [h.1] at hq
          rw [hq] at ha₂
          exact absurd ha₂ (by simp)

theorem tryArrow_arrow {x a r : List Char} (h : tryArrow x = some (a, r)) : arrowLitP a := by
  unfold tryArrow at h
  rcases h₁ : takeLit ("-->".data) x with _ | r₁ <;> rw [h₁] at h
  · rcases h₂ : takeLit ("==>".data) x with _ | r₂ <;> rw [h₂] at h
    · rcases h₃ : takeLit ("-.->".data) x with _ | r₃ <;> rw [h₃] at h
      · rcases h₄ : takeLit ("---".data) x with _ | r₄ <;> rw [h₄] at h
        · exact absurd h (by simp)
        · cases h; exact Or.inr (Or.inr (Or.inr rfl))
      · cases h; exact Or.inr (Or.inr (Or.inl rfl))
    · cases h; exact Or.inr (Or.inl rfl)
  · cases h; exact Or.inl rfl

theorem sepMatch_eq_none_of (l : List Char) (hw : headWs l = true)
    (ht : tryArrow (l.dropWhile jsWs) = none) : sepMatch l = none := by
  unfold sepMatch
  rw [if_pos hw, ht]

theorem sepMatch_eq_some_of (l a r₂ : List Char) (hw : headWs l = true)
    (ht : tryArrow (l.dropWhile jsWs) = some (a, r₂)) :
    sepMatch l = if headWs r₂ then some (a, r₂.dropWhile jsWs) else none := by
  unfold sepMatch
  rw [if_pos hw, ht]

theorem sepMatch_arrow {l a r : List Char} (h : sepMatch l = some (a, r)) : arrowLitP a := by
  by_cases hw : headWs l = true
  · rcases ht : tryArrow (l.dropWhile jsWs) with _ | ⟨a', r₂⟩
    · rw [sepMatch_eq_none_of l hw ht] at h
      exact absurd h (by simp)
    · rw [sepMatch_eq_some_of l a' r₂ hw ht] at h
      by_cases hd : headWs r₂ = true
      · rw [if_pos hd, Option.some_inj] at h
        have ha : a' = a := congrArg Prod.fst h
        rw [← ha]
        exact tryArrow_arrow ht
      · rw [if_neg hd] at h
        exact absurd h (by simp)
  · unfold sepMatch at h
    rw [if_neg hw] at h
    exact absurd h (by simp)

theorem splitGoF_zero (acc l : List Char) : splitGoF 0 acc l = [acc.reverse ++ l] := rfl

theorem splitGoF_nil (f : Nat) (acc : List Char) : splitGoF (f + 1) acc [] = [acc.reverse] := rfl

theorem splitGoF_sep (f : Nat) (acc : List Char) {c : Char} {cs a rest : List Char}
    (hs : sepMatch (c :: cs) = some (a, rest)) :
    splitGoF (f + 1) acc (c :: cs) = acc.reverse :: a :: splitGoF f [] rest := by
  show (match sepMatch (c :: cs) with
        | some (a, rest) => acc.reverse :: a :: splitGoF f [] rest
        | none => splitGoF f (c :: acc) cs) = _
  rw [hs]

theorem splitGoF_nosep (f : Nat) (acc : List Char) {c : Char} {cs : List Char}
    (hs : sepMatch (c :: cs) = none) :
    splitGoF (f + 1) acc (c :: cs) = splitGoF f (c :: acc) cs := by
  show (match sepMatch (c :: cs) with
        | some (a, rest) => acc.reverse :: a :: splitGoF f [] rest
        | none => splitGoF f (c :: acc) cs) = _
  rw [hs]

theorem splitGoShape : ∀ fuel acc l, ∃ pre rest,
    splitGoF fuel acc l = (acc.reverse ++ pre) :: rest ∧ (∃ t, l = pre ++ t) ∧
    (rest = [] ∨ ∃ a r', rest = a :: r' ∧ arrowLitP a) := by
  intro fuel
  induction fuel with
  | zero =>
    intro acc l
    exact ⟨l, [], splitGoF_zero acc l, ⟨[], (List.append_nil l).symm⟩, Or.inl rfl⟩
  | succ f ih =>
    intro acc l
    cases l with
    | nil =>
      refine ⟨[], [], ?_, ⟨[], rfl⟩, Or.inl rfl⟩
      rw [splitGoF_nil, List.append_nil]
    | cons c cs =>
      rcases hs : sepMatch (c :: cs) with _ | ⟨a, rest0⟩
      · obtain ⟨pre', rest', heq, ⟨t, ht⟩, hr⟩ := ih (c :: acc) cs
        refine ⟨c :: pre', rest', ?_, ⟨t, by rw [ht, List.cons_append]⟩, hr⟩
        rw [splitGoF_nosep f acc hs, heq]
        simp
      · refine ⟨[], a :: splitGoF f [] rest0, ?_, ⟨c :: cs, rfl⟩, ?_⟩
        · rw [splitGoF_sep f acc hs, List.append_nil]
        · exact Or.inr ⟨a, splitGoF f [] rest0, rfl, sepMatch_arrow hs⟩

theorem mem_trimEnd {c : Char} {m : List Char} (h : c ∈ trimEnd m) : c ∈ m := by
  obtain ⟨w, hw⟩ := trimEnd_decomp m
  rw [hw]
  exact List.mem_append_left w h

theorem mem_jsTrim {c : Char} {l : List Char} (h : c ∈ jsTrim l) : c ∈ l := by
  have h₁ : c ∈ l.dropWhile jsWs := mem_trimEnd h
  have h₂ : l.takeWhile jsWs ++ l.dropWhile jsWs = l := List.takeWhile_append_dropWhile jsWs l
  rw [← h₂]
  exact List.mem_append_right _ h₁

theorem labelScan_dotOk : ∀ r acc out, (∀ c ∈ acc, dotOk c = true) →
    labelScan acc r = some out → ∀ c ∈ out, dotOk c = true := by
  intro r
  induction r with
  | nil => intro acc out _ h; exact absurd h (by simp [labelScan])
  | cons d ds ih =>
    intro acc out hacc h
    rw [labelScan] at h
    split at h
    · cases h
      intro c hc
      exact hacc c (List.mem_reverse.mp hc)
    · split at h
      · refine ih (d :: acc) out ?_ h
        intro c hc
        rcases List.mem_cons.mp hc with rfl | hc'
        · assumption
        · exact hacc c hc'
      · exact absurd h (by simp)

theorem nodeMatch_inv {t id lab : List Char} (h : nodeMatch t = some (id, lab)) :
    id = t.takeWhile idChar ∧ id ≠ [] ∧ id.all idChar = true ∧
      ∃ r₃, labelScan [] r₃ = some lab := by
  by_cases hk : (t.takeWhile idChar).isEmpty = true
  · have hz : nodeMatch t = none := by
      unfold nodeMatch
      rw [if_pos hk]
    rw [hz] at h
    exact absurd h (by simp)
  · rcases hn : nodeLabel ((t.dropWhile idChar).dropWhile jsWs) with _ | lab'
    · have hz : nodeMatch t = none := by
        unfold nodeMatch
        rw [if_neg hk, hn]
      rw [hz] at h
      exact absurd h (by simp)
    · have he : nodeMatch t = some (t.takeWhile idChar, lab') := by
        unfold nodeMatch
        rw [if_neg hk, hn]
      rw [he, Option.some_inj] at h
      have hid : t.takeWhile idChar = id := congrArg Prod.fst h
      have hlab : lab' = lab := congrArg Prod.snd h
      refine ⟨hid.symm, ?_, ?_, ?_⟩
      · rw [← hid]
        simpa using hk
      · rw [← hid, List.all_eq_true]
        intro x hx
        exact List.mem_takeWhile_imp hx
      · rcases hd : (t.dropWhile idChar).dropWhile jsWs with _ | ⟨d, r₃⟩ <;> rw [hd] at hn
        · exact absurd hn (by simp [nodeLabel])
        · rw [show nodeLabel (d :: r₃) =
              (if d == '[' || d == '(' || d == obraceC then labelScan [] r₃ else none) from rfl]
            at hn
          by_cases ho : (d == '[' || d == '(' || d == obraceC) = true
          · rw [if_pos ho] at hn
            exact ⟨r₃, by rw [hn, hlab]⟩
          · rw [if_neg ho] at hn
            exact absurd hn (by simp)

theorem labelClean_labelCh {lab out : List Char} (hsc : ∃ r₃, labelScan [] r₃ = some lab)
    (hout : out = labelClean lab) : ∀ c ∈ out, labelCh c := by
  intro c hc
  rw [hout] at hc
  unfold labelClean at hc
  have h₁ := mem_jsTrim hc
  rw [List.mem_filter] at h₁
  obtain ⟨h₂, hcls⟩ := h₁
  rw [List.mem_filter] at h₂
  obtain ⟨h₃, _⟩ := h₂
  rw [List.mem_filter] at h₃
  obtain ⟨hmem, _⟩ := h₃
  obtain ⟨r₃, hr₃⟩ := hsc
  exact ⟨hcls, labelScan_dotOk r₃ [] lab (by simp) hr₃ c hmem⟩

theorem sanitizePart_valid (p : List Char) (h : sanitizePart p ≠ []) :
    tokOk (sanitizePart p) := by
  by_cases ha : isArrowTok (jsTrim p) = true
  · have he : sanitizePart p = jsTrim p := by
      unfold sanitizePart
      rw [if_pos ha]
    rw [he]
    exact Or.inl ha
  · rcases hn : nodeMatch (jsTrim p) with _ | ⟨id, lab⟩
    · have he : sanitizePart p =
          if !(jsTrim p).isEmpty && (jsTrim p).all idChar then jsTrim p else [] := by
        unfold sanitizePart
        rw [if_neg ha, hn]
      rw [he] at h ⊢
      by_cases hb : (!(jsTrim p).isEmpty && (jsTrim p).all idChar) = true
      · rw [if_pos hb] at h ⊢
        rw [Bool.and_eq_true] at hb
        refine Or.inr (Or.inl ⟨?_, hb.2⟩)
        simpa using hb.1
      · rw [if_neg hb] at h
        exact absurd rfl h
    · have he : sanitizePart p = id ++ ('[' :: quoteC :: (labelClean lab ++ [quoteC, ']'])) := by
        unfold sanitizePart
        rw [if_neg ha, hn]
      obtain ⟨_, hid₁, hid₂, hsc⟩ := nodeMatch_inv hn
      rw [he]
      exact Or.inr (Or.inr ⟨id, labelClean lab, rfl, hid₁, hid₂,
        labelClean_labelCh hsc rfl⟩)

theorem sanitizeLine_tokOk (line : List Char) :
    ∀ t ∈ sanitizeLine line, tokOk t := by
  intro t ht
  unfold sanitizeLine at ht
  rw [List.mem_filter] at ht
  obtain ⟨hmem, hne⟩ := ht
  rw [List.mem_map] at hmem
  obtain ⟨p, _, hp⟩ := hmem
  rw [← hp]
  refine sanitizePart_valid p ?_
  rw [hp]
  simpa using hne

theorem sanitizePart_arrow {a : List Char} (h : arrowLitP a) : sanitizePart a = a := by
  rcases h with h | h | h | h <;> rw [h] <;> decide

theorem arrowLitP_ne_nil {a : List Char} (h : arrowLitP a) : a ≠ [] := by
  rcases h with h | h | h | h <;> rw [h] <;> decide

theorem isArrowTok_cases {t : List Char} (h : isArrowTok t = true) : arrowLitP t := by
  unfold isArrowTok at h
  simp only [Bool.or_eq_true, beq_iff_eq] at h
  unfold arrowLitP
  tauto

theorem tok_no_nl {t : List Char} (h : tokOk t) : '\n' ∉ t := by
  rcases h with h | ⟨_, h⟩ | ⟨id, lab, heq, _, hid, hlab⟩
  · rcases isArrowTok_cases h with h' | h' | h' | h' <;> rw [h'] <;> decide
  · intro hmem
    rw [List.all_eq_true] at h
    have := h '\n' hmem
    exact absurd this (by decide)
  · intro hmem
    rw [heq] at hmem
    rw [List.mem_append] at hmem
    rcases hmem with hmem | hmem
    · rw [List.all_eq_true] at hid
      exact absurd (hid '\n' hmem) (by decide)
    · rcases List.mem_cons.mp hmem with hc | hmem
      · exact absurd hc (by decide)
      · rcases List.mem_cons.mp hmem with hc | hmem
        · exact absurd hc (by decide)
        · rw [List.mem_append] at hmem
          rcases hmem with hmem | hmem
          · have := (hlab '\n' hmem).2
            exact absurd this (by decide)
          · rcases List.mem_cons.mp hmem with hc | hmem
            · exact absurd hc (by decide)
            · rcases List.mem_cons.mp hmem with hc | hmem
              · exact absurd hc (by decide)
              · exact absurd hmem (by simp)

theorem part_ci {pat : List Char} (hp : ∀ q ∈ pat, q.toLower.isAlpha = true)
    (p : List Char) (hne : sanitizePart p ≠ [])
    (h : ciStarts pat (sanitizePart p) = true) :
    isArrowTok (sanitizePart p) = true ∨ ciStarts pat (jsTrim p) = true := by
  by_cases ha : isArrowTok (jsTrim p) = true
  · have he : sanitizePart p = jsTrim p := by
      unfold sanitizePart
      rw [if_pos ha]
    rw [he]
    exact Or.inl ha
  · rcases hn : nodeMatch (jsTrim p) with _ | ⟨id, lab⟩
    · have he : sanitizePart p =
          if !(jsTrim p).isEmpty && (jsTrim p).all idChar then jsTrim p else [] := by
        unfold sanitizePart
        rw [if_neg ha, hn]
      rw [he] at h hne
      by_cases hb : (!(jsTrim p).isEmpty && (jsTrim p).all idChar) = true
      · rw [if_pos hb] at h
        exact Or.inr h
      · rw [if_neg hb] at hne
        exact absurd rfl hne
    · have he : sanitizePart p = id ++ ('[' :: quoteC :: (labelClean lab ++ [quoteC, ']'])) := by
        unfold sanitizePart
        rw [if_neg ha, hn]
      rw [he] at h
      obtain ⟨hid, _, _, _⟩ := nodeMatch_inv hn
      refine Or.inr ?_
      have h₁ : ciStarts pat id = true := ciStarts_stops hp (by decide) h
      have h₂ : ciStarts pat (id ++ (jsTrim p).dropWhile idChar) = true :=
        ciStarts_of_append _ h₁
      rw [hid] at h₂
      rw [List.takeWhile_append_dropWhile idChar (jsTrim p)] at h₂
      exact h₂

theorem ciStarts_nil_false {p : Char} {ps : List Char} : ciStarts (p :: ps) [] = false := rfl

theorem ciStarts_head_ne {p c : Char} {ps cs : List Char}
    (h : p.toLower ≠ c.toLower) : ciStarts (p :: ps) (c :: cs) = false := by
  simp [ciStarts, h]

theorem takeLitCI_head {p : Char} {ps l r : List Char}
    (h : takeLitCI (p :: ps) l = some r) :
    ∃ c cs, l = c :: cs ∧ p.toLower = c.toLower := by
  cases l with
  | nil => exact absurd h (by simp [takeLitCI])
  | cons c cs =>
    refine ⟨c, cs, rfl, ?_⟩
    unfold takeLitCI at h
    by_cases hb : (p.toLower == c.toLower) = true
    · exact beq_iff_eq.mp hb
    · rw [if_neg hb] at h
      exact absurd h (by simp)

theorem joinSep_two (sep x y : List Char) (ys : List (List Char)) :
    joinSep sep (x :: y :: ys) = x ++ sep ++ joinSep sep (y :: ys) := rfl

theorem joinStop {pat : List Char} (hp : ∀ q ∈ pat, q.toLower.isAlpha = true)
    {h : List Char} {r : List (List Char)}
    (hj : ciStarts pat (joinSep [' '] (h :: r)) = true) : ciStarts pat h = true := by
  cases r with
  | nil => exact hj
  | cons y ys =>
    rw [joinSep_two, List.append_assoc] at hj
    exact ciStarts_stops hp (by decide) hj

theorem joinSep_ne_nil {h : List Char} (sep : List Char) (r : List (List Char))
    (hne : h ≠ []) : joinSep sep (h :: r) ≠ [] := by
  cases r with
  | nil => exact hne
  | cons y ys =>
    rw [joinSep_two, List.append_assoc]
    intro hc
    rw [List.append_eq_nil] at hc
    exact hne hc.1

theorem mem_joinSep {c : Char} {sep : List Char} :
    ∀ xs, c ∈ joinSep sep xs → c ∈ sep ∨ ∃ x ∈ xs, c ∈ x := by
  intro xs
  induction xs with
  | nil => intro h; exact absurd h (by simp [joinSep])
  | cons x xs ih =>
    intro h
    cases xs with
    | nil => exact Or.inr ⟨x, by simp, h⟩
    | cons y ys =>
      rw [joinSep_two] at h
      rw [List.mem_append] at h
      rcases h with h | h
      · rw [List.mem_append] at h
        rcases h with h | h
        · exact Or.inr ⟨x, by simp, h⟩
        · exact Or.inl h
      · rcases ih h with h | ⟨z, hz, hcz⟩
        · exact Or.inl h
        · exact Or.inr ⟨z, by simp [hz], hcz⟩

theorem splitNL_ne_nil : ∀ l : List Char, splitNL l ≠ [] := by
  intro l
  induction l with
  | nil => simp [splitNL]
  | cons c cs ih =>
    unfold splitNL
    by_cases hc : (c == '\n') = true
    · rw [if_pos hc]
      simp
    · rw [if_neg hc]
      rcases hs : splitNL cs with _ | ⟨y, ys⟩
      · simp
      · simp

theorem mem_splitNL_no_nl : ∀ l x, x ∈ splitNL l → '\n' ∉ x := by
  intro l
  induction l with
  | nil =>
    intro x hx
    rw [show splitNL [] = [[]] from rfl] at hx
    rcases List.mem_cons.mp hx with rfl | hx
    · simp
    · exact absurd hx (by simp)
  | cons c cs ih =>
    intro x hx
    unfold splitNL at hx
    by_cases hc : (c == '\n') = true
    · rw [if_pos hc] at hx
      rcases List.mem_cons.mp hx with rfl | hx
      · simp
      · exact ih x hx
    · rw [if_neg hc] at hx
      rcases hs : splitNL cs with _ | ⟨y, ys⟩ <;> rw [hs] at hx
      · rcases List.mem_cons.mp hx with rfl | hx
        · intro hm
          rcases List.mem_cons.mp hm with rfl | hm
          · exact hc (by simp)
          · exact absurd hm (by simp)
        · exact absurd hx (by simp)
      · rcases List.mem_cons.mp hx with rfl | hx
        · intro hm
          rcases List.mem_cons.mp hm with rfl | hm
          · exact hc (by simp)
          · exact ih y (by rw [hs]; simp) hm
        · exact ih x (by rw [hs]; simp [hx])

theorem splitNL_nl (cs : List Char) : splitNL ('\n' :: cs) = [] :: splitNL cs := by
  rw [splitNL]
  rw [if_pos (by simp)]

theorem splitNL_cons_ne {c : Char} {cs : List Char} (hc : (c == '\n') = false)
    {y : List Char} {ys : List (List Char)} (hs : splitNL cs = y :: ys) :
    splitNL (c :: cs) = (c :: y) :: ys := by
  rw [splitNL]
  rw [if_neg (by simp [hc]), hs]

theorem splitNL_single {x : List Char} (h : '\n' ∉ x) : splitNL x = [x] := by
  induction x with
  | nil => rfl
  | cons c cs ih =>
    have hc : (c == '\n') = false := by
      simp only [beq_eq_false_iff_ne]
      intro hc
      exact h (by simp [hc])
    exact splitNL_cons_ne hc (ih (fun hm => h (by simp [hm])))

theorem splitNL_append {x : List Char} (t : List Char) (h : '\n' ∉ x) :
    splitNL (x ++ '\n' :: t) = x :: splitNL t := by
  induction x with
  | nil =>
    rw [List.nil_append]
    exact splitNL_nl t
  | cons c cs ih =>
    have hc : (c == '\n') = false := by
      simp only [beq_eq_false_iff_ne]
      intro hc
      exact h (by simp [hc])
    rw [List.cons_append]
    exact splitNL_cons_ne hc (ih (fun hm => h (by simp [hm])))

theorem splitNL_joinSep : ∀ ls : List (List Char), ls ≠ [] →
    (∀ x ∈ ls, '\n' ∉ x) → splitNL (joinSep ['\n'] ls) = ls := by
  intro ls
  induction ls with
  | nil => intro h; exact absurd rfl h
  | cons x xs ih =>
    intro _ hnl
    cases xs with
    | nil => exact splitNL_single (hnl x (by simp))
    | cons y ys =>
      rw [joinSep_two, List.append_assoc, List.singleton_append]
      rw [splitNL_append _ (hnl x (by simp))]
      rw [ih (by simp) (fun z hz => hnl z (by simp [hz]))]

theorem processLine_inv {line out : List Char} (h : processLine line = some out) :
    groupTest line = false ∧ sanitizeLine line ≠ [] ∧
      out = joinSep [' '] (sanitizeLine line) := by
  unfold processLine at h
  by_cases hg : groupTest line = true
  · rw [if_pos hg] at h
    exact absurd h (by simp)
  · rw [if_neg hg] at h
    by_cases he : (sanitizeLine line).isEmpty = true
    · rw [if_pos he] at h
      exact absurd h (by simp)
    · rw [if_neg he] at h
      refine ⟨by simpa using hg, by simpa using he, (Option.some_inj.mp h).symm⟩

theorem ciStarts_nil_of_ne {pat : List Char} (h : pat ≠ []) :
    ciStarts pat [] = false := by
  cases pat with
  | nil => exact absurd rfl h
  | cons q qs => rfl

theorem ci_transfer (pat : List Char) (hpne : pat ≠ [])
    (hp : ∀ q ∈ pat, q.toLower.isAlpha = true)
    (harr : ∀ a, arrowLitP a → ciStarts pat a = false)
    {line out : List Char} (hline : line.dropWhile jsWs = line)
    (hpl : processLine line = some out)
    (h : ciStarts pat out = true) : ciStarts pat line = true := by
  obtain ⟨hg, hne, hout⟩ := processLine_inv hpl
  obtain ⟨pre, rest, heq, ⟨t, hlt⟩, hrest⟩ :=
    splitGoShape (padAll line).length [] (padAll line)
  rw [List.reverse_nil, List.nil_append] at heq
  have hSL : sanitizeLine line =
      (sanitizePart pre :: rest.map sanitizePart).filter (fun x => !x.isEmpty) := by
    unfold sanitizeLine splitArrows
    rw [heq, List.map_cons]
  by_cases hp0 : sanitizePart pre = []
  · rcases hrest with rfl | ⟨a, r', hr, harrP⟩
    · rw [hSL] at hne
      simp [hp0] at hne
    · rw [hr, List.map_cons, sanitizePart_arrow harrP] at hSL
      have hfil : sanitizeLine line =
          a :: (r'.map sanitizePart).filter (fun x => !x.isEmpty) := by
        rw [hSL, List.filter_cons_of_neg (by simp [hp0]),
          List.filter_cons_of_pos (by simp [arrowLitP_ne_nil harrP])]
      rw [hfil] at hout
      rw [hout] at h
      have hcia := joinStop hp h
      rw [harr a harrP] at hcia
      exact absurd hcia (by simp)
  · have hfil : sanitizeLine line = sanitizePart pre ::
        (rest.map sanitizePart).filter (fun x => !x.isEmpty) := by
      rw [hSL, List.filter_cons_of_pos (by simp [hp0])]
    rw [hfil] at hout
    rw [hout] at h
    have hcip := joinStop hp h
    rcases part_ci hp pre hp0 hcip with harrT | hci
    · have hfa := harr _ (isArrowTok_cases harrT)
      rw [hfa] at hcip
      exact absurd hcip (by simp)
    · have h₁ : ciStarts pat (pre.dropWhile jsWs) = true := ciStarts_jsTrim hci
      have hnn : ¬(pre.dropWhile jsWs).isEmpty = true := by
        intro hz
        rw [List.isEmpty_iff] at hz
        rw [hz, ciStarts_nil_of_ne hpne] at h₁
        exact absurd h₁ (by simp)
      have hl4 : ciStarts pat ((padAll line).dropWhile jsWs) = true := by
        rw [hlt, List.dropWhile_append, if_neg hnn]
        exact ciStarts_of_append _ h₁
      unfold padAll at hl4
      rw [padArrow] at hl4
      have h₃ := padDrop ("---".data) rfl (by decide) (by decide) _ pat _ hp hl4
      rw [padArrow] at h₃
      have h₂ := padDrop ("-.->".data) rfl (by decide) (by decide) _ pat _ hp h₃
      rw [padArrow] at h₂
      have h₁' := padDrop ("===>".data) rfl (by decide) (by decide) _ pat _ hp h₂
      rw [padArrow] at h₁'
      have h₀ := padDrop ("-->".data) rfl (by decide) (by decide) _ pat _ hp h₁'
      rw [hline] at h₀
      exact h₀

theorem processLine_nogroup {line out : List Char} (hline : line.dropWhile jsWs = line)
    (hpl : processLine line = some out) : groupingLine out = false := by
  obtain ⟨hg, _, _⟩ := processLine_inv hpl
  by_contra hgo
  rw [Bool.not_eq_false, groupingLine, Bool.or_eq_true] at hgo
  rcases hgo with hgo | hgo
  · have hcl := ci_transfer ("subgraph".data) (by decide) (by decide)
      (fun a ha => by rcases ha with h | h | h | h <;> rw [h] <;> decide)
      hline hpl hgo
    have : groupTest line = true := by
      rw [groupTest, hcl]
      rfl
    rw [this] at hg
    exact absurd hg (by simp)
  · have hcl := ci_transfer ("end".data) (by decide) (by decide)
      (fun a ha => by rcases ha with h | h | h | h <;> rw [h] <;> decide)
      hline hpl hgo
    have : groupTest line = true := by
      rw [groupTest, hcl]
      simp
    rw [this] at hg
    exact absurd hg (by simp)

theorem processLine_no_nl {line out : List Char}
    (hpl : processLine line = some out) : '\n' ∉ out := by
  obtain ⟨_, _, hout⟩ := processLine_inv hpl
  intro hmem
  rw [hout] at hmem
  rcases mem_joinSep _ hmem with hc | ⟨x, hx, hcx⟩
  · exact absurd hc (by decide)
  · exact tok_no_nl (sanitizeLine_tokOk line x hx) hcx

theorem sanitizedLines_facts {l line : List Char} (h : line ∈ sanitizedLines l) :
    line.dropWhile jsWs = line ∧ line ≠ [] ∧ '\n' ∉ line := by
  unfold sanitizedLines at h
  rw [List.mem_filter] at h
  obtain ⟨hm, hne⟩ := h
  rw [List.mem_map] at hm
  obtain ⟨x, hx, hxe⟩ := hm
  refine ⟨?_, by simpa using hne, ?_⟩
  · rw [← hxe]
    exact jsTrim_dropWhile x
  · intro hmem
    rw [← hxe] at hmem
    exact mem_splitNL_no_nl _ x hx (mem_jsTrim hmem)

theorem headerTest_head {l : List Char} (h : headerTest l = true) :
    ∃ c cs, l = c :: cs ∧ (c.toLower = 'g' ∨ c.toLower = 'f') := by
  rw [headerTest, Bool.or_eq_true] at h
  rcases h with h | h
  · rcases ht : takeLitCI ("graph".data) l with _ | r <;> rw [ht] at h
    · exact absurd h (by simp)
    · obtain ⟨c, cs, hl, hc⟩ := takeLitCI_head ht
      exact ⟨c, cs, hl, Or.inl hc.symm⟩
  · rcases ht : takeLitCI ("flowchart".data) l with _ | r <;> rw [ht] at h
    · exact absurd h (by simp)
    · obtain ⟨c, cs, hl, hc⟩ := takeLitCI_head ht
      exact ⟨c, cs, hl, Or.inr hc.symm⟩

theorem headerTest_not_group {l : List Char} (h : headerTest l = true) :
    groupingLine l = false := by
  obtain ⟨c, cs, hl, hc⟩ := headerTest_head h
  rw [hl, groupingLine]
  have h₁ : ciStarts ("subgraph".data) (c :: cs) = false := by
    refine ciStarts_head_ne ?_
    rcases hc with hc | hc <;> rw [hc] <;> decide
  have h₂ : ciStarts ("end".data) (c :: cs) = false := by
    refine ciStarts_head_ne ?_
    rcases hc with hc | hc <;> rw [hc] <;> decide
  rw [h₁, h₂]
  rfl

theorem sanitizeCore_shape (l : List Char) (hl : l ≠ []) :
    ∃ hd bodyLines, sanitizeCore l = joinSep ['\n'] (hd :: bodyLines) ∧
      hd ≠ [] ∧ '\n' ∉ hd ∧ headerTest hd = true ∧
      ∀ b ∈ bodyLines, ∃ line, line ∈ sanitizedLines l ∧ processLine line = some b := by
  have hl' : ¬l.isEmpty = true := by simpa using hl
  rcases hsl : sanitizedLines l with _ | ⟨l₀, rest⟩
  · refine ⟨"graph TD".data, [], ?_, by decide, by decide, by decide, by simp⟩
    unfold sanitizeCore
    rw [if_neg hl', hsl]
  · have hcc : sanitizeCore l =
        (if headerTest l₀ then joinSep ['\n'] (l₀ :: rest.filterMap processLine)
         else joinSep ['\n'] ("graph TD".data :: (l₀ :: rest).filterMap processLine)) := by
      unfold sanitizeCore
      rw [if_neg hl', hsl]
    by_cases hh : headerTest l₀ = true
    · rw [hcc, if_pos hh]
      refine ⟨l₀, rest.filterMap processLine, rfl, ?_, ?_, hh, ?_⟩
      · exact (@sanitizedLines_facts l l₀ (by rw [hsl]; simp)).2.1
      · exact (@sanitizedLines_facts l l₀ (by rw [hsl]; simp)).2.2
      · intro b hb
        rw [List.mem_filterMap] at hb
        obtain ⟨line, hline, hpb⟩ := hb
        exact ⟨line, List.mem_cons_of_mem l₀ hline, hpb⟩
    · rw [hcc, if_neg hh]
      refine ⟨"graph TD".data, (l₀ :: rest).filterMap processLine, rfl,
        by decide, by decide, by decide, ?_⟩
      intro b hb
      rw [List.mem_filterMap] at hb
      obtain ⟨line, hline, hpb⟩ := hb
      exact ⟨line, hline, hpb⟩

theorem takeWhile_eq_of_all {p : Char → Bool} :
    ∀ {l : List Char}, (∀ c ∈ l, p c = true) → l.takeWhile p = l := by
  intro l
  induction l with
  | nil => intro _; rfl
  | cons c cs ih =>
    intro h
    rw [List.takeWhile_cons_of_pos (h c (by simp))]
    rw [ih (fun d hd => h d (by simp [hd]))]

theorem takeWhile_append_stop {p : Char → Bool} {d : Char} {t : List Char} :
    ∀ {h : List Char}, (∀ c ∈ h, p c = true) → p d = false →
      (h ++ d :: t).takeWhile p = h := by
  intro h
  induction h with
  | nil =>
    intro _ hd
    rw [List.nil_append, List.takeWhile_cons_of_neg (by simp [hd])]
  | cons c cs ih =>
    intro hall hd
    rw [List.cons_append, List.takeWhile_cons_of_pos (hall c (by simp))]
    rw [ih (fun e he => hall e (by simp [he])) hd]

theorem firstSeg_joinSep {hd : List Char} (r : List (List Char)) (hnl : '\n' ∉ hd) :
    firstSeg (joinSep ['\n'] (hd :: r)) = hd := by
  have hall : ∀ c ∈ hd, (!(c == '\n')) = true := by
    intro c hc
    simp only [Bool.not_eq_true']
    rw [beq_eq_false_iff_ne]
    intro he
    exact hnl (he ▸ hc)
  cases r with
  | nil => exact takeWhile_eq_of_all hall
  | cons y ys =>
    rw [joinSep_two, List.append_assoc, List.singleton_append]
    exact takeWhile_append_stop hall (by decide)

theorem mk_ne_empty {x : List Char} (h : x ≠ []) : String.mk x ≠ "" := by
  intro hc
  exact h (congrArg String.data hc)

theorem data_ne_nil {s : String} (h : s ≠ "") : s.data ≠ [] := by
  intro hc
  apply h
  have : s = String.mk s.data := rfl
  rw [this, hc]

theorem connLike_all {t : List Char} (h : connLike t = true) :
    t ≠ [] ∧ ∀ c ∈ t, (c == '-' || c == '=' || c == '.' || c == '>') = true := by
  rw [connLike, Bool.and_eq_true] at h
  refine ⟨by simpa using h.1, ?_⟩
  rw [← List.all_eq_true]
  exact h.2

theorem labelCh_not_delim {c : Char} (h : labelCh c) :
    ¬(c = quoteC ∨ c = squoteC ∨ c = btickC ∨ c = '[' ∨ c = ']' ∨ c = '(' ∨
      c = ')' ∨ c = obraceC ∨ c = cbraceC) := by
  intro hc
  have h1 := h.1
  rcases hc with hc | hc | hc | hc | hc | hc | hc | hc | hc <;>
    rw [hc] at h1 <;> exact absurd h1 (by decide)

/-- Claim C1, counterexample: the input "A -->" (dangling arrow, no right-hand
target) is not dropped; the sanitizer emits the line "A -->" in partial form,
its token list ending in a connector with no node token after it. -/
theorem c1_counterexample :
    sanitizeMermaid "A -->" = "graph TD\nA -->" ∧
      sanitizeLine ("A -->".data) = ["A".data, "-->".data] :=
  ⟨by decide, by decide⟩

/-- Claim C1 (amended): every token of an emitted body line is a canonical
connector, a bare identifier or a canonical node token, but a connector may
lack a node endpoint on either side; an edge with a missing endpoint, such as
the input "A -->", is emitted in partial form rather than dropped. -/
theorem c1_amended :
    (∀ line : List Char, ∀ t ∈ sanitizeLine line, tokOk t) ∧
      sanitizeMermaid "A -->" = "graph TD\nA -->" :=
  ⟨fun line t ht => sanitizeLine_tokOk line t ht, by decide⟩

/-- Witness for the amended C1 theorem at a concrete line and token. -/
theorem c1_witness :
    ("A".data ∈ sanitizeLine ("A -->".data)) ∧ tokOk ("A".data) :=
  ⟨by decide, c1_amended.1 ("A -->".data) ("A".data) (by decide)⟩

/-- Claim C2, counterexample: the input "flowchart LR" declares a non-canonical
header, which the sanitizer keeps verbatim; the first line of the non-empty
result is "flowchart LR", not the canonical top-down header "graph TD". -/
theorem c2_counterexample :
    sanitizeMermaid "flowchart LR" = "flowchart LR" ∧
      firstSeg (sanitizeCore ("flowchart LR".data)) = "flowchart LR".data ∧
      ("flowchart LR".data == "graph TD".data) = false :=
  ⟨by decide, by decide, by decide⟩

/-- Claim C2 (amended): the first line of every non-empty result is a header
line — either the input's own graph/flowchart header kept verbatim or the
synthesized "graph TD" — so it always passes the header test, but it is not
always the canonical "graph TD". -/
theorem c2_amended (s : String) (h : sanitizeMermaid s ≠ "") :
    headerTest (firstSeg (sanitizeCore s.data)) = true := by
  have hd : s.data ≠ [] := by
    intro hc
    apply h
    unfold sanitizeMermaid
    rw [hc]
    rfl
  obtain ⟨hd0, body, hcore, hne, hnl, hht, _⟩ := sanitizeCore_shape s.data hd
  rw [hcore, firstSeg_joinSep body hnl]
  exact hht

/-- Witness for the amended C2 theorem at a concrete input. -/
theorem c2_witness :
    sanitizeMermaid "x" ≠ "" ∧ headerTest (firstSeg (sanitizeCore "x".data)) = true :=
  ⟨by decide, c2_amended "x" (by decide)⟩

/-- Claim C3, counterexample: the input "!!!" is non-empty, declares no header
and has no surviving body line, yet the result is "graph TD" rather than the
empty string. -/
theorem c3_counterexample :
    headerTest ("!!!".data) = false ∧ sanitizeLine ("!!!".data) = [] ∧
      sanitizeMermaid "!!!" = "graph TD" ∧ (sanitizeMermaid "!!!" == "") = false :=
  ⟨by decide, by decide, by decide, by decide⟩

/-- Claim C3 (amended): the sanitizer returns the empty string exactly when
the input is empty; for every non-empty input the result is non-empty, since
a header line is always emitted even when nothing else survives. -/
theorem c3_amended :
    sanitizeMermaid "" = "" ∧ ∀ s : String, s ≠ "" → sanitizeMermaid s ≠ "" := by
  refine ⟨by decide, ?_⟩
  intro s hs
  have hd : s.data ≠ [] := data_ne_nil hs
  obtain ⟨hd0, body, hcore, hne, _, _, _⟩ := sanitizeCore_shape s.data hd
  unfold sanitizeMermaid
  rw [hcore]
  exact mk_ne_empty (joinSep_ne_nil _ body hne)

/-- Witness for the amended C3 theorem at a concrete input. -/
theorem c3_witness : ("!!!" : String) ≠ "" ∧ sanitizeMermaid "!!!" ≠ "" :=
  ⟨by decide, c3_amended.2 "!!!" (by decide)⟩

/-- Claim C4, counterexample: the sanitizer is not idempotent; on the input
"A[x --- y] --> B" sanitizing the already-sanitized output changes it again. -/
theorem c4_counterexample :
    (sanitizeMermaid (sanitizeMermaid "A[x --- y] --> B") ==
      sanitizeMermaid "A[x --- y] --> B") = false := by decide

/-- Claim C4 (amended): the sanitizer is not idempotent; re-sanitizing its own
output can drop further content, as the two evaluations below show: the first
pass yields "graph TD\n--- --> B" and the second pass reduces it further to
"graph TD\n---". -/
theorem c4_amended :
    sanitizeMermaid "A[x --- y] --> B" = "graph TD\n--- --> B" ∧
      sanitizeMermaid "graph TD\n--- --> B" = "graph TD\n---" :=
  ⟨by decide, by decide⟩

/-- Claim C5, counterexample: on the input "A ---->> B" the output is
"graph TD\nA -->"; it does not contain the node B at all, so A and B are not
joined by a canonical solid arrow. -/
theorem c5_counterexample :
    sanitizeMermaid "A ---->> B" = "graph TD\nA -->" ∧
      containsSub ("B".data) (sanitizeCore ("A ---->> B".data)) = false :=
  ⟨by decide, by decide⟩

/-- Claim C5 (amended): the garbled run "---->" collapses to a single
canonical solid arrow, but the leftover ">" makes the right-hand piece
unclassifiable, so B is dropped: preprocessing yields "A -->> B" and the
final output is "graph TD\nA -->". -/
theorem c5_amended :
    preprocess ("A ---->> B".data) = "A -->> B".data ∧
      sanitizeMermaid "A ---->> B" = "graph TD\nA -->" :=
  ⟨by decide, by decide⟩

/-- Claim C6, counterexample: the input "A --- B" survives with the plain-link
connector "---" in the output, a fourth connector form beyond the three the
claim allows (solid, thick, dotted). -/
theorem c6_counterexample :
    sanitizeMermaid "A --- B" = "graph TD\nA --- B" ∧
      ("---".data ∈ sanitizeLine ("A --- B".data)) ∧ connLike ("---".data) = true ∧
      ("---".data == "-->".data || "---".data == "==>".data ||
        "---".data == "-.->".data) = false :=
  ⟨by decide, by decide, by decide, by decide⟩

/-- Claim C6 (amended): every connector-shaped token the sanitizer emits is
one of exactly four canonical forms: the solid arrow, the thick arrow, the
dotted arrow, or the plain link "---". -/
theorem c6_amended :
    ∀ line : List Char, ∀ t ∈ sanitizeLine line, connLike t = true → arrowLitP t := by
  intro line t ht hc
  obtain ⟨hne, hall⟩ := connLike_all hc
  rcases sanitizeLine_tokOk line t ht with h | ⟨hne', hid⟩ | ⟨id, lab, heq, _, _, _⟩
  · exact isArrowTok_cases h
  · cases t with
    | nil => exact absurd rfl hne
    | cons c cs =>
      rw [List.all_eq_true] at hid
      have h1 := hid c (by simp)
      have h2 := hall c (by simp)
      exfalso
      simp only [Bool.or_eq_true, beq_iff_eq] at h2
      rcases h2 with ((rfl | rfl) | rfl) | rfl <;> exact absurd h1 (by decide)
  · exfalso
    have h2 := hall '[' (by rw [heq]; exact List.mem_append_right id (by simp))
    exact absurd h2 (by decide)

/-- Witness for the amended C6 theorem at a concrete line and token. -/
theorem c6_witness :
    ("-->".data ∈ sanitizeLine ("A --> B".data)) ∧ connLike ("-->".data) = true ∧
      arrowLitP ("-->".data) :=
  ⟨by decide, by decide, c6_amended ("A --> B".data) ("-->".data) (by decide) (by decide)⟩

/-- Claim C7: for every input, no line of the sanitized output is a
grouping-marker line (a line starting, case-insensitively, with the subgraph
keyword or the end keyword); and on the concrete input
"subgraph X\nA-->B\nend" the grouping lines are removed while the inner edge
is retained. -/
theorem c7_theorem :
    (∀ s : String, ∀ x ∈ splitNL (sanitizeCore s.data), groupingLine x = false) ∧
      sanitizeMermaid "subgraph X\nA-->B\nend" = "graph TD\nA --> B" := by
  refine ⟨?_, by decide⟩
  intro s x hx
  by_cases hd : s.data = []
  · rw [hd, show sanitizeCore [] = [] from rfl, show splitNL [] = [[]] from rfl] at hx
    rcases List.mem_cons.mp hx with rfl | hx
    · decide
    · exact absurd hx (by simp)
  · obtain ⟨hd0, body, hcore, hne, hnl, hht, hbody⟩ := sanitizeCore_shape s.data hd
    rw [hcore] at hx
    have hnlAll : ∀ y ∈ hd0 :: body, '\n' ∉ y := by
      intro y hy
      rcases List.mem_cons.mp hy with rfl | hy
      · exact hnl
      · obtain ⟨line, _, hpl⟩ := hbody y hy
        exact processLine_no_nl hpl
    rw [splitNL_joinSep (hd0 :: body) (by simp) hnlAll] at hx
    rcases List.mem_cons.mp hx with rfl | hx
    · exact headerTest_not_group hht
    · obtain ⟨line, hmem, hpl⟩ := hbody x hx
      exact processLine_nogroup (sanitizedLines_facts hmem).1 hpl

/-- Witness for the C7 theorem at a concrete input and output line. -/
theorem c7_witness :
    ("A --> B".data ∈ splitNL (sanitizeCore ("subgraph X\nA-->B\nend".data))) ∧
      groupingLine ("A --> B".data) = false :=
  ⟨by decide, c7_theorem.1 "subgraph X\nA-->B\nend" ("A --> B".data) (by decide)⟩

/-- Claim C8, counterexample: a label may contain a tab character, which is
neither a letter, a digit, a space nor a hyphen: the input "A[a\tb] --> B"
emits the labelled node token A["a\tb"] with the tab kept inside the label. -/
theorem c8_counterexample :
    sanitizeLine ("A[a\tb] --> B".data) =
        ["A[\"a\tb\"]".data, "-->".data, "B".data] ∧
      ('\t' ∈ "A[\"a\tb\"]".data) ∧
      ('\t'.isAlpha || '\t'.isDigit || '\t' == ' ' || '\t' == '-') = false ∧
      sanitizeMermaid "A[a\tb] --> B" = "graph TD\nA[\"a\tb\"] --> B" :=
  ⟨by decide, by decide, by decide, by decide⟩

/-- Claim C8 (amended): every emitted token containing an opening bracket is a
node in exactly the canonical form identifier["cleaned label"], where the
cleaned label contains only letters, digits, whitespace characters and
hyphens — in particular no quotes, brackets or braces that could terminate
the delimiter; C((Circle Label)) re-emits as C["Circle Label"] and an
embedded double-quote is removed so the label stays contained. -/
theorem c8_amended :
    (∀ line : List Char, ∀ t ∈ sanitizeLine line, '[' ∈ t →
      ∃ id lab, t = id ++ '[' :: quoteC :: (lab ++ [quoteC, ']']) ∧
        id ≠ [] ∧ id.all idChar = true ∧
        ∀ c ∈ lab, labelCh c ∧ ¬(c = quoteC ∨ c = squoteC ∨ c = btickC ∨ c = '[' ∨
          c = ']' ∨ c = '(' ∨ c = ')' ∨ c = obraceC ∨ c = cbraceC)) ∧
      sanitizeMermaid "C((Circle Label))" = "graph TD\nC[\"Circle Label\"]" ∧
      sanitizeMermaid "A[\"Say \"hi\"\"]" = "graph TD\nA[\"Say hi\"]" := by
  refine ⟨?_, by decide, by decide⟩
  intro line t ht hbr
  rcases sanitizeLine_tokOk line t ht with h | ⟨_, hid⟩ | ⟨id, lab, heq, hne, hall, hlab⟩
  · exfalso
    rcases isArrowTok_cases h with h' | h' | h' | h' <;> rw [h'] at hbr <;>
      exact absurd hbr (by decide)
  · exfalso
    rw [List.all_eq_true] at hid
    exact absurd (hid '[' hbr) (by decide)
  · exact ⟨id, lab, heq, hne, hall,
      fun c hc => ⟨hlab c hc, labelCh_not_delim (hlab c hc)⟩⟩

/-- Witness for the amended C8 theorem at a concrete line and token. -/
theorem c8_witness :
    ("C[\"Circle Label\"]".data ∈ sanitizeLine ("C((Circle Label))".data)) ∧
      (∃ id lab, "C[\"Circle Label\"]".data =
          id ++ '[' :: quoteC :: (lab ++ [quoteC, ']']) ∧
        id ≠ [] ∧ id.all idChar = true ∧
        ∀ c ∈ lab, labelCh c ∧ ¬(c = quoteC ∨ c = squoteC ∨ c = btickC ∨ c = '[' ∨
          c = ']' ∨ c = '(' ∨ c = ')' ∨ c = obraceC ∨ c = cbraceC)) :=
  ⟨by decide, c8_amended.1 ("C((Circle Label))".data) ("C[\"Circle Label\"]".data)
    (by decide) (by decide)⟩

/-- Claim C9: the sanitizer is total — it is a plain function on strings that
returns a string for every input, including the empty string, strings without
newlines and binary-garbage strings; there is no failure path in its
definition. -/
theorem c9_theorem :
    (∀ s : String, ∃ t : String, sanitizeMermaid s = t) ∧
      sanitizeMermaid "" = "" ∧ sanitizeMermaid "\x00\x01" = "graph TD" ∧
      sanitizeMermaid "no newline here" = "graph TD" :=
  ⟨fun s => ⟨sanitizeMermaid s, rfl⟩, by decide, by decide, by decide⟩

/-- Claim C10: any body line whose text begins, case-insensitively, with
"end" or "subgraph" is dropped by the residual grouping-marker re-check, even
when it is a valid node or edge declaration such as "Endpoint[Label] --> A". -/
theorem c10_theorem :
    (∀ line : List Char, groupTest line = true → processLine line = none) ∧
      groupTest ("Endpoint[Label] --> A".data) = true ∧
      sanitizeMermaid "Endpoint[Label] --> A" = "graph TD" := by
  refine ⟨?_, by decide, by decide⟩
  intro line h
  unfold processLine
  rw [if_pos h]

/-- Witness for the C10 theorem at a concrete line. -/
theorem c10_witness :
    groupTest ("end of flow".data) = true ∧ processLine ("end of flow".data) = none :=
  ⟨by decide, c10_theorem.1 ("end of flow".data) (by decide)⟩
